import Mathlib

/-!
Verification of the format-size resolution engine of the youtube-size-extension
native host (`native_host/ytdlp_host.py`).

Modelling conventions (shallow embedding):
* JSON numbers are modelled as exact rationals (`ℚ`); the Python code only
  performs `+ * / int() round()`-style arithmetic on them here, and every
  concrete input used below is exactly representable in binary floating point,
  so the rational model agrees with CPython on those inputs.
* A Python value that may be absent or `None` is an `Option`; for the fields
  read through `dict.get`, an absent key and a `null` value are
  indistinguishable in the source, and are both `none` here.
* `int(x)` on a float is truncation toward zero (`pyTrunc`).
* Strings are Lean `String`s; `\s` and `\w` of the source's regexes are
  modelled over their ASCII meaning, which covers every character the
  tool's tabular output contains.
-/

/-- Python `int(x)` applied to a float/rational: truncation toward zero. -/
def pyTrunc (q : ℚ) : ℤ := if 0 ≤ q then q.floor else q.ceil

/-- Modelled from the spec: Python `round(x)` (round half to even), used to
state the spec's `round(...)` formulas for comparison with the code. -/
def pyRound (q : ℚ) : ℤ :=
  let f := q.floor
  let r := q - (f : ℚ)
  if r < 1/2 then f
  else if 1/2 < r then f + 1
  else if f % 2 = 0 then f else f + 1

/-- One yt-dlp format object (a "track"), restricted to the fields the engine
reads.  Numeric fields hold JSON numbers (`ℚ`); `height` is kept only when it
is an `int` in the source's `isinstance(h, int)` sense. -/
structure Fmt where
  format_id : Option String
  vcodec : Option String
  acodec : Option String
  ext : Option String
  height : Option ℤ
  fps : Option ℚ
  tbr : Option ℚ
  vbr : Option ℚ
  abr : Option ℚ
  filesize : Option ℚ
  filesize_approx : Option ℚ
deriving DecidableEq, Repr

/-- `str.lower()` restricted to ASCII, as a structurally recursive function
(the codec/extension strings the engine compares are ASCII). -/
def lowerStr (s : String) : String := String.mk (s.data.map Char.toLower)

/-- `(f.get(k) or '').lower()` for a string field. -/
def lowerD (o : Option String) : String := lowerStr (o.getD "")

/-- First entry of the list that is present and strictly positive; mirrors the
loop over `("tbr", "vbr", "abr")` in `_filesize_from_fmt`. -/
def firstPos : List (Option ℚ) → Option ℚ
  | [] => none
  | o :: rest =>
    match o with
    | some v => if 0 < v then some v else firstPos rest
    | none => firstPos rest

/-- `_filesize_from_fmt(fmt, duration_sec)`: exact size, else approximate
size, else bitrate × duration estimate, else `None`.  The bitrate branch
fires only when `duration_sec` is truthy (present and nonzero). -/
def filesizeFromFmt (fmt : Option Fmt) (durationSec : Option ℤ) : Option ℤ :=
  match fmt with
  | none => none
  | some f =>
    match f.filesize with
    | some v => some (pyTrunc v)
    | none =>
      match f.filesize_approx with
      | some v => some (pyTrunc v)
      | none =>
        match firstPos [f.tbr, f.vbr, f.abr], durationSec with
        | some kbps, some d =>
          if d ≠ 0 then some (pyTrunc (kbps * 1000 / 8 * (d : ℚ))) else none
        | _, _ => none

/-- A format object with every field absent; concrete tracks below override
the fields they carry. -/
def emptyFmt : Fmt where
  format_id := none
  vcodec := none
  acodec := none
  ext := none
  height := none
  fps := none
  tbr := none
  vbr := none
  abr := none
  filesize := none
  filesize_approx := none

/-! ## Track selection (`_pick_audio`, `_pick_video_by_height`,
`_pick_progressive_by_height`) -/

/-- Kind filter for video-only tracks: `vcodec != 'none' and acodec == 'none'`. -/
def isVideoOnly (f : Fmt) : Bool :=
  (lowerD f.vcodec != "none") && (lowerD f.acodec == "none")

/-- Kind filter for audio-only tracks: `vcodec == 'none' and acodec != 'none'`. -/
def isAudioOnly (f : Fmt) : Bool :=
  (lowerD f.vcodec == "none") && (lowerD f.acodec != "none")

/-- Kind filter for progressive tracks: both codecs present. -/
def isProgressive (f : Fmt) : Bool :=
  (lowerD f.vcodec != "none") && (lowerD f.acodec != "none")

/-- `isinstance(f.get('height'), int) and h > 0`. -/
def hasPosIntHeight (f : Fmt) : Bool :=
  match f.height with
  | some h => decide (0 < h)
  | none => false

/-- The `height` value with Python's falsy default (only read on tracks whose
height is present). -/
def heightOf (f : Fmt) : ℤ := f.height.getD 0

/-- The ranking key `(has_size, tbr, fps)` used by `key1`/`key2`/`key3` (and
their progressive twins) inside the height-based pickers. -/
structure RankKey where
  hasSize : Bool
  tbr : ℚ
  fps : ℚ
deriving DecidableEq, Repr

/-- Python's lexicographic comparison of the `(has, tbr, fps)` tuples
(`False < True` on the first component). -/
def rankKeyLt (a b : RankKey) : Bool :=
  (!a.hasSize && b.hasSize)
    || ((a.hasSize == b.hasSize)
      && (decide (a.tbr < b.tbr) || ((a.tbr == b.tbr) && decide (a.fps < b.fps))))

/-- The key computed for one candidate (`size is not None`, `tbr or 0`,
`fps or 0`). -/
def rankKey (d : Option ℤ) (f : Fmt) : RankKey where
  hasSize := (filesizeFromFmt (some f) d).isSome
  tbr := f.tbr.getD 0
  fps := f.fps.getD 0

/-- First element of the list attaining the maximal key: the value of
`sorted(cands, key=key, reverse=True)[0]` (a stable descending sort followed
by taking the head) and of Python's `max(cands, key=score)`. -/
def argmaxFirst {α κ : Type} (lt : κ → κ → Bool) (key : α → κ) : List α → Option α
  | [] => none
  | f :: fs => some (fs.foldl (fun acc g => if lt (key acc) (key g) then g else acc) f)

/-- `best, _filesize_from_fmt(best, duration_sec)` for a candidate pool. -/
def pickFrom (d : Option ℤ) (cands : List Fmt) : Option Fmt × Option ℤ :=
  match argmaxFirst rankKeyLt (rankKey d) cands with
  | some b => (some b, filesizeFromFmt (some b) d)
  | none => (none, none)

/-- `max(...)` over a nonempty list of heights (`h` is the generator's first
element). -/
def listMaxZ (h : ℤ) (hs : List ℤ) : ℤ := hs.foldl max h

/-- `min(...)` over a nonempty list of heights. -/
def listMinZ (h : ℤ) (hs : List ℤ) : ℤ := hs.foldl min h

/-- The pool of height-carrying tracks of the requested kind built at the top
of `_pick_video_by_height` / `_pick_progressive_by_height`. -/
def heightPool (kind : Fmt → Bool) (formats : List Fmt) : List Fmt :=
  formats.filter fun f => kind f && hasPosIntHeight f

/-- `max(...)` of a height list (only applied to nonempty lists, matching the
nonempty generator in the source). -/
def listMaxD : List ℤ → ℤ
  | [] => 0
  | h :: hs => listMaxZ h hs

/-- `min(...)` of a height list (only applied to nonempty lists). -/
def listMinD : List ℤ → ℤ
  | [] => 0
  | h :: hs => listMinZ h hs

/-- `[f for f in videos if isinstance(f.get('height'), int) and f.get('height') < target_h]`. -/
def belowFilter (pool : List Fmt) (t : ℤ) : List Fmt :=
  pool.filter fun f =>
    match f.height with
    | some h => decide (h < t)
    | none => false

/-- `[f for f in videos if isinstance(f.get('height'), int) and f.get('height') > target_h]`. -/
def aboveFilter (pool : List Fmt) (t : ℤ) : List Fmt :=
  pool.filter fun f =>
    match f.height with
    | some h => decide (t < h)
    | none => false

/-- The shared body of `_pick_video_by_height` and
`_pick_progressive_by_height` after the pool has been built: narrow to exact
height, else to the largest height strictly below the target, else to the
smallest height strictly above, then rank by `(has_size, tbr, fps)`. -/
def pickByHeightFromPool (pool : List Fmt) (targetH : ℤ) (d : Option ℤ) :
    Option Fmt × Option ℤ :=
  if pool = [] then (none, none)
  else
    let exact := pool.filter fun f => f.height == some targetH
    if exact ≠ [] then pickFrom d exact
    else
      let below := belowFilter pool targetH
      if below ≠ [] then
        pickFrom d (below.filter fun f =>
          f.height == some (listMaxD (below.map heightOf)))
      else
        let above := aboveFilter pool targetH
        if above ≠ [] then
          pickFrom d (above.filter fun f =>
            f.height == some (listMinD (above.map heightOf)))
        else (none, none)

/-- `_pick_video_by_height(formats, target_h, duration_sec)`. -/
def pickVideoByHeight (formats : List Fmt) (targetH : ℤ) (d : Option ℤ) :
    Option Fmt × Option ℤ :=
  pickByHeightFromPool (heightPool isVideoOnly formats) targetH d

/-- `_pick_progressive_by_height(formats, target_h, duration_sec)`. -/
def pickProgressiveByHeight (formats : List Fmt) (targetH : ℤ) (d : Option ℤ) :
    Option Fmt × Option ℤ :=
  pickByHeightFromPool (heightPool isProgressive formats) targetH d

/-- `p.toList` occurs as a contiguous run inside `h.toList`; substring test
backing Python's `in` on strings. -/
def chunkLeads (p h : List Char) : Bool :=
  match p, h with
  | [], _ => true
  | _ :: _, [] => false
  | c :: cs, d :: ds => (c == d) && chunkLeads cs ds

/-- `pat in hay` for strings (contiguous substring). -/
def strContains (hay pat : String) : Bool :=
  let rec go : List Char → Bool
    | [] => chunkLeads pat.data []
    | c :: cs => chunkLeads pat.data (c :: cs) || go cs
  go hay.data

/-- The additive score of `_pick_audio`: `+3` for an Opus codec, `+1` for a
`webm` container, `+2` for an AAC codec or `.m4a` container, `+2` for a
determinable size. -/
def audioScore (d : Option ℤ) (f : Fmt) : ℤ :=
  (if strContains (lowerD f.acodec) "opus" then 3 else 0)
    + (if lowerD f.ext == "webm" then 1 else 0)
    + (if strContains (lowerD f.acodec) "aac" || lowerD f.ext == "m4a" then 2 else 0)
    + (if (filesizeFromFmt (some f) d).isSome then 2 else 0)

/-- The full ranking key of `_pick_audio`: `(score, abr or 0.0)`. -/
def audioKey (d : Option ℤ) (f : Fmt) : ℤ × ℚ := (audioScore d f, f.abr.getD 0)

/-- Python's lexicographic comparison of the `(score, abr)` tuples. -/
def audioKeyLt (a b : ℤ × ℚ) : Bool :=
  decide (a.1 < b.1) || ((a.1 == b.1) && decide (a.2 < b.2))

/-- `_pick_audio(formats, duration_sec)`: filter to audio-only candidates and
take `max(cands, key=score)` (first maximal element), with its size. -/
def pickAudio (formats : List Fmt) (d : Option ℤ) : Option Fmt × Option ℤ :=
  match argmaxFirst audioKeyLt (audioKey d) (formats.filter isAudioOnly) with
  | some b => (some b, filesizeFromFmt (some b) d)
  | none => (none, none)

/-! ## Metadata resolver (`compute_sizes_from_json_all`) -/

/-- One entry of a yt-dlp metadata document: an optional duration (a JSON
number) and the format list. -/
structure MetaDoc where
  duration : Option ℚ
  formats : List Fmt
deriving DecidableEq, Repr

/-- A top-level metadata document, possibly a playlist container with an
`entries` list. -/
structure MetaTop where
  entries : Option (List MetaDoc)
  top : MetaDoc
deriving DecidableEq, Repr

/-- The playlist handling at the top of `compute_sizes_from_json_all`: when a
nonempty `entries` list is present, take the first entry with a nonempty
format list, else the first entry; otherwise use the document itself. -/
def resolveEntry (m : MetaTop) : MetaDoc :=
  match m.entries with
  | some (e :: es) =>
    match (e :: es).find? (fun x => !x.formats.isEmpty) with
    | some x => x
    | none => e
  | _ => m.top

/-- Duration extraction: `int(float(meta['duration']))` when present, else a
positive integer hint. -/
def durationSecOf (doc : MetaDoc) (hint : Option ℤ) : Option ℤ :=
  match doc.duration with
  | some d => some (pyTrunc d)
  | none =>
    match hint with
    | some h => if 0 < h then some h else none
    | none => none

/-- `str(f.get('format_id'))`: Python renders an absent id as `"None"`. -/
def fmtIdStr (f : Fmt) : String := f.format_id.getD "None"

/-- `fmt_by_id(fid)`: first format whose id string equals `fid`. -/
def fmtById (formats : List Fmt) (fid : String) : Option Fmt :=
  formats.find? fun f => fmtIdStr f == fid

/-- `size_for(f)`: a reported size that is present and strictly positive
(`filesize` preferred over `filesize_approx`), truncated to an integer. -/
def sizeFor (f? : Option Fmt) : Option ℤ :=
  match f? with
  | none => none
  | some f =>
    let approx : Option ℤ :=
      match f.filesize_approx with
      | some s => if 0 < s then some (pyTrunc s) else none
      | none => none
    match f.filesize with
    | some s => if 0 < s then some (pyTrunc s) else approx
    | none => approx

/-- `a251_b`: the determinable size of the canonical audio track `251`. -/
def a251Of (doc : MetaDoc) : Option ℤ := sizeFor (fmtById doc.formats "251")

/-- `audio_b`: the explicit `251` size when determinable, else the size of the
track chosen by `_pick_audio`. -/
def audioB (doc : MetaDoc) (d : Option ℤ) : Option ℤ :=
  match a251Of doc with
  | some a => some a
  | none => (pickAudio doc.formats d).2

/-- Per-height video-only size: the canonical id's determinable size when
present (bypassing height search), else the height-based pick's size. -/
def videoSizeAt (doc : MetaDoc) (d : Option ℤ) (h : ℤ) (fid : String) : Option ℤ :=
  match sizeFor (fmtById doc.formats fid) with
  | some v => some v
  | none => (pickVideoByHeight doc.formats h d).2

/-- Per-height combined size: video-only plus shared audio when both are
known, else the progressive pick's own size. -/
def combinedAt (doc : MetaDoc) (d : Option ℤ) (h : ℤ) (fid : String) : Option ℤ :=
  match videoSizeAt doc d h fid, audioB doc d with
  | some v, some a => some (v + a)
  | _, _ => (pickProgressiveByHeight doc.formats h d).2

/-- The `(height, canonical id)` table iterated by the resolver. -/
def heightsTable : List (ℤ × String) :=
  [(144, "394"), (240, "395"), (360, "396"), (480, "397"),
   (720, "398"), (1080, "399"), (1440, "400")]

/-- Video-only size of a codec-variant id: `_filesize_from_fmt(f, d) if f else
None` (no positivity filter, bitrate estimation allowed). -/
def variantVideoSize (doc : MetaDoc) (d : Option ℤ) (fid : String) : Option ℤ :=
  match fmtById doc.formats fid with
  | some f => filesizeFromFmt (some f) d
  | none => none

/-- The full output of `compute_sizes_from_json_all`. -/
structure SizeResult where
  s144p : Option ℤ
  s240p : Option ℤ
  s360p : Option ℤ
  s480p : Option ℤ
  s720p : Option ℤ
  s1080p : Option ℤ
  s1440p : Option ℤ
  v394 : Option ℤ
  v395 : Option ℤ
  v396 : Option ℤ
  v397 : Option ℤ
  v398 : Option ℤ
  v399 : Option ℤ
  v400 : Option ℤ
  v299 : Option ℤ
  v303 : Option ℤ
  v308 : Option ℤ
  a251 : Option ℤ
  durationSec : Option ℤ
deriving DecidableEq, Repr

/-- `compute_sizes_from_json_all(meta, duration_hint)`. -/
def computeSizesFromJsonAll (m : MetaTop) (hint : Option ℤ) : SizeResult :=
  let doc := resolveEntry m
  let d := durationSecOf doc hint
  { s144p := combinedAt doc d 144 "394"
    s240p := combinedAt doc d 240 "395"
    s360p := combinedAt doc d 360 "396"
    s480p := combinedAt doc d 480 "397"
    s720p := combinedAt doc d 720 "398"
    s1080p := combinedAt doc d 1080 "399"
    s1440p := combinedAt doc d 1440 "400"
    v394 := videoSizeAt doc d 144 "394"
    v395 := videoSizeAt doc d 240 "395"
    v396 := videoSizeAt doc d 360 "396"
    v397 := videoSizeAt doc d 480 "397"
    v398 := videoSizeAt doc d 720 "398"
    v399 := videoSizeAt doc d 1080 "399"
    v400 := videoSizeAt doc d 1440 "400"
    v299 := variantVideoSize doc d "299"
    v303 := variantVideoSize doc d "303"
    v308 := variantVideoSize doc d "308"
    a251 := a251Of doc
    durationSec := d }

/-! ## Text table parser (`parse_sizes_from_format_list`) -/

/-- The fixed id set seeding the parser's dictionary. -/
def knownIds : List String :=
  ["394", "395", "396", "397", "398", "399", "400", "299", "303", "308", "251"]

/-- ASCII `\s` (the tabular tool output contains no other whitespace). -/
def isPySpace (c : Char) : Bool :=
  c == ' ' || c == '\t' || c == '\n' || c == '\r' || c == '\x0b' || c == '\x0c'

/-- ASCII `\w`: letters, digits and underscore. -/
def isPyWord (c : Char) : Bool := c.isAlphanum || c == '_'

/-- `ID_RE = ^\s*(\d{3,4})\b` applied to one line: skip leading whitespace,
take the maximal digit run; it matches exactly when that run has length 3 or 4
and is followed by a non-word character or the end of the line. -/
def idOfLine (cs : List Char) : Option String :=
  let rest := cs.dropWhile isPySpace
  let ds := rest.takeWhile Char.isDigit
  let tail := rest.drop ds.length
  let boundary :=
    match tail with
    | [] => true
    | c :: _ => !isPyWord c
  if (ds.length == 3 || ds.length == 4) && boundary then some (String.mk ds) else none

/-- Numeric value of a digit run. -/
def digitsVal (ds : List Char) : ℕ :=
  ds.foldl (fun n c => 10 * n + (c.toNat - '0'.toNat)) 0

/-- `float("<ds>.<fs>")` as an exact rational. -/
def decimalVal (ds fs : List Char) : ℚ :=
  (digitsVal ds : ℚ) + (digitsVal fs : ℚ) / (10 : ℚ) ^ fs.length

/-- The binary multiplier for a size unit. -/
def unitFactor : List Char → Option ℚ
  | 'K' :: 'i' :: 'B' :: _ => some 1024
  | 'M' :: 'i' :: 'B' :: _ => some (1024 ^ 2)
  | 'G' :: 'i' :: 'B' :: _ => some (1024 ^ 3)
  | 'T' :: 'i' :: 'B' :: _ => some (1024 ^ 4)
  | _ => none

/-- One attempt of `SIZE_RE = (\d+(?:\.\d+)?)\s*(KiB|MiB|GiB|TiB)` anchored at
the head of `cs`; greedy sub-matches are equivalent to maximal runs here
because a shorter run leaves a digit (or a space) where the unit alternation
must start. -/
def sizeAt (cs : List Char) : Option ℚ :=
  let ds := cs.takeWhile Char.isDigit
  if ds.isEmpty then none
  else
    let rest := cs.drop ds.length
    let (fs, rest2) :=
      match rest with
      | '.' :: r =>
        let fs := r.takeWhile Char.isDigit
        if fs.isEmpty then (([] : List Char), rest) else (fs, r.drop fs.length)
      | _ => (([] : List Char), rest)
    match unitFactor (rest2.dropWhile isPySpace) with
    | some factor => some (decimalVal ds fs * factor)
    | none => none

/-- `SIZE_RE.search(line)`: leftmost match wins. -/
def searchSize : List Char → Option ℚ
  | [] => none
  | c :: rest =>
    match sizeAt (c :: rest) with
    | some q => some q
    | none => searchSize rest

/-- Splitting into lines at `'\n'` (the modelled subset of `str.splitlines`). -/
def splitLinesChars (cs : List Char) : List (List Char) :=
  match cs with
  | [] => [[]]
  | c :: rest =>
    let ls := splitLinesChars rest
    if c == '\n' then [] :: ls
    else
      match ls with
      | l :: ls' => (c :: l) :: ls'
      | [] => [[c]]

/-- The loop body of `parse_sizes_from_format_list` over the accumulated
dictionary (a relevant line with a size token overwrites the id's value). -/
def parseSizesStep (m : String → Option ℤ) (line : List Char) : String → Option ℤ :=
  match idOfLine line with
  | none => m
  | some fid =>
    if fid ∈ knownIds then
      match searchSize line with
      | none => m
      | some q => fun k => if k = fid then some (pyTrunc q) else m k
    else m

/-- `parse_sizes_from_format_list(text)` over an explicit line list. -/
def parseSizesLines (lines : List (List Char)) : String → Option ℤ :=
  lines.foldl parseSizesStep (fun _ => none)

/-- `parse_sizes_from_format_list(text)`. -/
def parseSizesFromFormatList (text : String) : String → Option ℤ :=
  parseSizesLines (splitLinesChars text.data)

/-! ## Request handling (`main`, after the URL check) -/

/-- The flat byte map assembled by `main`. -/
structure MainBytes where
  s144p : Option ℤ
  s240p : Option ℤ
  s360p : Option ℤ
  s480p : Option ℤ
  s720p : Option ℤ
  s1080p : Option ℤ
  s1440p : Option ℤ
  v394 : Option ℤ
  v395 : Option ℤ
  v396 : Option ℤ
  v397 : Option ℤ
  v398 : Option ℤ
  v399 : Option ℤ
  v400 : Option ℤ
  v299 : Option ℤ
  v303 : Option ℤ
  v308 : Option ℤ
  s1080p_299 : Option ℤ
  s1080p_303 : Option ℤ
  s1080p_399 : Option ℤ
  s1440p_308 : Option ℤ
  s1440p_400 : Option ℤ
  a251 : Option ℤ
deriving DecidableEq, Repr

/-- All byte fields start out `None`. -/
def emptyBytes : MainBytes where
  s144p := none
  s240p := none
  s360p := none
  s480p := none
  s720p := none
  s1080p := none
  s1440p := none
  v394 := none
  v395 := none
  v396 := none
  v397 := none
  v398 := none
  v399 := none
  v400 := none
  v299 := none
  v303 := none
  v308 := none
  s1080p_299 := none
  s1080p_303 := none
  s1080p_399 := none
  s1440p_308 := none
  s1440p_400 := none
  a251 := none

/-- `(v + a251) if v is not None else None`, guarded by `if a251 is not None`:
the codec-variant combination of `main` (lines 746-751). -/
def variantCombined (a251 v : Option ℤ) : Option ℤ :=
  match a251 with
  | none => none
  | some a =>
    match v with
    | some x => some (x + a)
    | none => none

/-- `(v + a) if (v is not None and a is not None) else None`: the summations
of the `-F` fallback branch. -/
def addOpt (v a : Option ℤ) : Option ℤ :=
  match v, a with
  | some x, some y => some (x + y)
  | _, _ => none

/-- The result of one collaborator call: payload, error text, exit code. -/
structure ToolCall (α : Type) where
  payload : Option α
  errText : Option String
  code : ℤ
deriving Repr

/-- `duration_hint` validation in `main`: keep only positive values. -/
def normHint (hint : Option ℤ) : Option ℤ :=
  match hint with
  | some h => if 0 < h then some h else none
  | none => none

/-- The byte map and duration obtained from the structured `-J` path
(lines 723-751), or empty values when that call failed. -/
def jPhase (jres : ToolCall MetaTop) (dh : Option ℤ) : MainBytes × Option ℤ :=
  match jres.payload with
  | some m =>
    if jres.code = 0 then
      let r := computeSizesFromJsonAll m dh
      ({ s144p := r.s144p, s240p := r.s240p, s360p := r.s360p, s480p := r.s480p
         s720p := r.s720p, s1080p := r.s1080p, s1440p := r.s1440p
         v394 := r.v394, v395 := r.v395, v396 := r.v396, v397 := r.v397
         v398 := r.v398, v399 := r.v399, v400 := r.v400
         v299 := r.v299, v303 := r.v303, v308 := r.v308
         s1080p_299 := variantCombined r.a251 r.v299
         s1080p_303 := variantCombined r.a251 r.v303
         s1080p_399 := variantCombined r.a251 r.v399
         s1440p_308 := variantCombined r.a251 r.v308
         s1440p_400 := variantCombined r.a251 r.v400
         a251 := r.a251 }, r.durationSec)
    else (emptyBytes, none)
  | none => (emptyBytes, none)

/-- The trigger of the `-F` fallback: all seven combined sizes still missing
(line 754). -/
def fTrigger (b : MainBytes) : Bool :=
  [b.s144p, b.s240p, b.s360p, b.s480p, b.s720p, b.s1080p, b.s1440p].all Option.isNone

/-- The `-F` fallback branch (lines 755-783): on success, rebuild every field
from the parsed text table. -/
def fPhase (fres : ToolCall String) (b : MainBytes) : MainBytes :=
  if fTrigger b then
    match fres.payload with
    | some out =>
      if fres.code = 0 ∧ out ≠ "" then
        let sizes := parseSizesFromFormatList out
        let a251 := sizes "251"
        { s144p := addOpt (sizes "394") a251
          s240p := addOpt (sizes "395") a251
          s360p := addOpt (sizes "396") a251
          s480p := addOpt (sizes "397") a251
          s720p := addOpt (sizes "398") a251
          s1080p := addOpt (sizes "399") a251
          s1440p := addOpt (sizes "400") a251
          v394 := sizes "394", v395 := sizes "395", v396 := sizes "396"
          v397 := sizes "397", v398 := sizes "398", v399 := sizes "399"
          v400 := sizes "400", v299 := sizes "299", v303 := sizes "303"
          v308 := sizes "308"
          s1080p_299 := addOpt (sizes "299") a251
          s1080p_303 := addOpt (sizes "303") a251
          s1080p_399 := addOpt (sizes "399") a251
          s1440p_308 := addOpt (sizes "308") a251
          s1440p_400 := addOpt (sizes "400") a251
          a251 := a251 }
      else b
    | none => b
  else b

/-- Whether the duration-only lookup runs: no duration yet and no valid hint
(line 786). -/
def dTrigger (dur1 dh : Option ℤ) : Bool := dur1.isNone && dh.isNone

/-- Duration resolution after the size phases (lines 786-793). -/
def durFinal (dur1 dh : Option ℤ) (dres : ToolCall ℤ) : Option ℤ :=
  match dur1 with
  | some d => some d
  | none =>
    match dh with
    | some h => some h
    | none => dres.payload

/-- `any(x is not None for x in [...])` over the twelve combined sizes
(lines 798-801). -/
def hasAnySize (b : MainBytes) : Bool :=
  [b.s144p, b.s240p, b.s360p, b.s480p, b.s720p, b.s1080p, b.s1440p,
   b.s1080p_299, b.s1080p_303, b.s1080p_399, b.s1440p_308, b.s1440p_400].any Option.isSome

/-- A nonempty (truthy) error string. -/
def truthyStr (o : Option String) : Option String :=
  match o with
  | some s => if s = "" then none else some s
  | none => none

/-- `s[:300]`, over the character list. -/
def take300 (s : String) : String := String.mk (s.data.take 300)

/-- The captured error strings, each truncated to 300 characters
(lines 811-814): `j_err`, then `f_err` (only if `-F` was attempted), then
`d_err` (only if the duration lookup was attempted and failed). -/
def errEntries (jerr : Option String) (ferr : Option String) (fcode : Option ℤ)
    (derr : Option String) (dcode : Option ℤ) : List String :=
  (match truthyStr jerr with
   | some s => [take300 s]
   | none => [])
  ++ (match fcode, truthyStr ferr with
      | some _, some s => [take300 s]
      | _, _ => [])
  ++ (match dcode, truthyStr derr with
      | some c, some s => if c ≠ 0 then [take300 s] else []
      | _, _ => [])

/-- The failure message of `main` (lines 803-816): tool-not-found beats
timeout beats the joined error strings, with a fixed fallback text. -/
def failMsg (jerr : Option String) (jcode : ℤ) (ferr : Option String)
    (fcode : Option ℤ) (derr : Option String) (dcode : Option ℤ) : String :=
  if jcode = 127 ∨ fcode = some 127 then
    "yt-dlp not found in PATH. Please install yt-dlp."
  else if jcode = 124 ∨ fcode = some 124 then
    "yt-dlp timed out while fetching data."
  else
    let joined := String.intercalate "; " (errEntries jerr ferr fcode derr dcode)
    if joined = "" then
      "No size information could be determined from yt-dlp output."
    else joined

/-- A response sent by `main`: an error message, or the byte map with the
resolved duration. -/
inductive MainResp where
  | failure (msg : String)
  | success (b : MainBytes) (dur : Option ℤ)
deriving DecidableEq, Repr

/-- Whether a response reports failure (`"ok": False`). -/
def MainResp.isFailure : MainResp → Bool
  | .failure _ => true
  | .success _ _ => false

/-- The byte map after the structured path and the `-F` fallback. -/
def mainBytes (jres : ToolCall MetaTop) (fres : ToolCall String)
    (hint : Option ℤ) : MainBytes :=
  fPhase fres (jPhase jres (normHint hint)).1

/-- `f_code` as read by the error composition: the `-F` exit code when the
fallback was attempted, else Python's `None`. -/
def mainFCode (jres : ToolCall MetaTop) (fres : ToolCall String)
    (hint : Option ℤ) : Option ℤ :=
  if fTrigger (jPhase jres (normHint hint)).1 then some fres.code else none

/-- `f_err` as read by the error composition. -/
def mainFErr (jres : ToolCall MetaTop) (fres : ToolCall String)
    (hint : Option ℤ) : Option String :=
  if fTrigger (jPhase jres (normHint hint)).1 then fres.errText else none

/-- `d_code` as read by the error composition: set only when the duration
lookup ran. -/
def mainDCode (jres : ToolCall MetaTop) (dres : ToolCall ℤ)
    (hint : Option ℤ) : Option ℤ :=
  if dTrigger (jPhase jres (normHint hint)).2 (normHint hint) then some dres.code
  else none

/-- `d_err` as read by the error composition. -/
def mainDErr (jres : ToolCall MetaTop) (dres : ToolCall ℤ)
    (hint : Option ℤ) : Option String :=
  if dTrigger (jPhase jres (normHint hint)).2 (normHint hint) then dres.errText
  else none

/-- The failure message `main` composes when no size at all was found. -/
def mainFailText (jres : ToolCall MetaTop) (fres : ToolCall String)
    (dres : ToolCall ℤ) (hint : Option ℤ) : String :=
  failMsg jres.errText jres.code (mainFErr jres fres hint)
    (mainFCode jres fres hint) (mainDErr jres dres hint) (mainDCode jres dres hint)

/-- The duration field of a successful response. -/
def mainDur (jres : ToolCall MetaTop) (dres : ToolCall ℤ)
    (hint : Option ℤ) : Option ℤ :=
  durFinal (jPhase jres (normHint hint)).2 (normHint hint) dres

/-- `main` from the `-J` call to the response (lines 707-864), as a function
of the three collaborator call results and the request's duration hint. -/
def runMain (jres : ToolCall MetaTop) (fres : ToolCall String)
    (dres : ToolCall ℤ) (hint : Option ℤ) : MainResp :=
  if hasAnySize (mainBytes jres fres hint) then
    .success (mainBytes jres fres hint) (mainDur jres dres hint)
  else .failure (mainFailText jres fres dres hint)

/-! ## Generic facts about first-maximum selection -/

section ArgMax

variable {α κ : Type} (lt : κ → κ → Bool) (key : α → κ)

theorem foldl_pick_choice (fs : List α) (a : α) :
    fs.foldl (fun acc g => if lt (key acc) (key g) then g else acc) a = a ∨
      fs.foldl (fun acc g => if lt (key acc) (key g) then g else acc) a ∈ fs := by
  induction fs generalizing a with
  | nil => exact Or.inl rfl
  | cons g gs ih =>
    simp only [List.foldl_cons]
    rcases ih (if lt (key a) (key g) then g else a) with h | h
    · rw [h]
      split
      · exact Or.inr (List.mem_cons_self _ _)
      · exact Or.inl rfl
    · exact Or.inr (List.mem_cons_of_mem _ h)

theorem argmaxFirst_mem {l : List α} {b : α} (h : argmaxFirst lt key l = some b) :
    b ∈ l := by
  cases l with
  | nil => simp [argmaxFirst] at h
  | cons f fs =>
    simp only [argmaxFirst, Option.some_inj] at h
    rcases foldl_pick_choice lt key fs f with h' | h'
    · rw [← h, h']; exact List.mem_cons_self _ _
    · rw [← h]; exact List.mem_cons_of_mem _ h'

theorem argmaxFirst_isSome {l : List α} (h : l ≠ []) :
    (argmaxFirst lt key l).isSome := by
  cases l with
  | nil => exact absurd rfl h
  | cons f fs => simp [argmaxFirst]

theorem lt_irrefl_of_asymm (hasym : ∀ x y, lt x y = true → lt y x = false)
    (x : κ) : lt x x = false := by
  cases h : lt x x
  · rfl
  · have h2 := hasym x x h
    rw [h] at h2
    exact h2

/-- The accumulator of the first-maximum fold is never strictly below a
processed element, nor below the initial accumulator. -/
theorem foldl_pick_not_lt (hasym : ∀ x y, lt x y = true → lt y x = false)
    (htrans : ∀ x y z, lt x y = true → lt y z = true → lt x z = true)
    (hconn : ∀ x y, lt x y = false → lt y x = false → x = y)
    (fs : List α) (a : α) :
    (∀ y ∈ fs,
      lt (key (fs.foldl (fun acc g => if lt (key acc) (key g) then g else acc) a)) (key y)
        = false) ∧
    lt (key (fs.foldl (fun acc g => if lt (key acc) (key g) then g else acc) a)) (key a)
      = false := by
  induction fs generalizing a with
  | nil =>
    refine ⟨?_, ?_⟩
    · intro y hy; cases hy
    · exact lt_irrefl_of_asymm lt hasym _
  | cons g gs ih =>
    simp only [List.foldl_cons]
    by_cases hag : lt (key a) (key g) = true
    · rw [if_pos hag]
      have hres_g : lt (key (gs.foldl (fun acc g => if lt (key acc) (key g) then g else acc) g)) (key g) = false :=
        (ih g).2
      have hres_gs := (ih g).1
      have hres_a : lt (key (gs.foldl (fun acc g => if lt (key acc) (key g) then g else acc) g)) (key a) = false := by
        cases hra : lt (key (gs.foldl (fun acc g => if lt (key acc) (key g) then g else acc) g)) (key a)
        · rfl
        · have h3 := htrans _ _ _ hra hag
          rw [h3] at hres_g
          exact hres_g
      refine ⟨?_, hres_a⟩
      intro y hy
      rcases List.mem_cons.mp hy with rfl | hy
      · exact hres_g
      · exact hres_gs y hy
    · replace hag : lt (key a) (key g) = false := Bool.eq_false_iff.mpr hag
      rw [if_neg (by simp [hag])]
      have hres_a : lt (key (gs.foldl (fun acc g => if lt (key acc) (key g) then g else acc) a)) (key a) = false :=
        (ih a).2
      have hres_gs := (ih a).1
      have hres_g : lt (key (gs.foldl (fun acc g => if lt (key acc) (key g) then g else acc) a)) (key g) = false := by
        cases hrg : lt (key (gs.foldl (fun acc g => if lt (key acc) (key g) then g else acc) a)) (key g)
        · rfl
        · by_cases hga : lt (key g) (key a) = true
          · have h3 := htrans _ _ _ hrg hga
            rw [h3] at hres_a
            exact hres_a
          · replace hga : lt (key g) (key a) = false := Bool.eq_false_iff.mpr hga
            have hkeq := hconn _ _ hag hga
            rw [hkeq] at hres_a
            rw [hrg] at hres_a
            exact hres_a
      refine ⟨?_, hres_a⟩
      intro y hy
      rcases List.mem_cons.mp hy with rfl | hy
      · exact hres_g
      · exact hres_gs y hy

theorem argmaxFirst_not_lt (hasym : ∀ x y, lt x y = true → lt y x = false)
    (htrans : ∀ x y z, lt x y = true → lt y z = true → lt x z = true)
    (hconn : ∀ x y, lt x y = false → lt y x = false → x = y)
    {l : List α} {b : α} (h : argmaxFirst lt key l = some b) :
    ∀ y ∈ l, lt (key b) (key y) = false := by
  cases l with
  | nil => simp [argmaxFirst] at h
  | cons f fs =>
    simp only [argmaxFirst, Option.some_inj] at h
    intro y hy
    rcases List.mem_cons.mp hy with rfl | hy
    · rw [← h]; exact (foldl_pick_not_lt lt key hasym htrans hconn fs y).2
    · rw [← h]; exact (foldl_pick_not_lt lt key hasym htrans hconn fs f).1 y hy

end ArgMax

section ArgMaxUnique

variable {α κ : Type} (lt : κ → κ → Bool) (key : α → κ)

theorem foldl_pick_unique (hasym : ∀ x y, lt x y = true → lt y x = false)
    (fs : List α) (a x : α) (hmem : x = a ∨ x ∈ fs)
    (hmax : ∀ y, (y = a ∨ y ∈ fs) → y ≠ x → lt (key y) (key x) = true) :
    fs.foldl (fun acc g => if lt (key acc) (key g) then g else acc) a = x := by
  induction fs generalizing a with
  | nil =>
    rcases hmem with rfl | h
    · rfl
    · cases h
  | cons g gs ih =>
    simp only [List.foldl_cons]
    have hstep : (if lt (key a) (key g) then g else a) = x ∨ x ∈ gs := by
      rcases hmem with rfl | hxg
      · by_cases hg : g = x
        · subst hg
          split <;> simp
        · have hlt := hmax g (Or.inr (List.mem_cons_self _ _)) hg
          have : lt (key x) (key g) = false := hasym _ _ hlt
          rw [if_neg (by simp [this])]
          exact Or.inl rfl
      · rcases List.mem_cons.mp hxg with rfl | hxgs
        · by_cases ha : a = x
          · subst ha
            split <;> simp
          · have hlt := hmax a (Or.inl rfl) ha
            rw [if_pos hlt]
            exact Or.inl rfl
        · exact Or.inr hxgs
    have hcov : ∀ y, (y = (if lt (key a) (key g) then g else a) ∨ y ∈ gs) →
        y ≠ x → lt (key y) (key x) = true := by
      intro y hy hyx
      rcases hy with rfl | hygs
      · by_cases hag : lt (key a) (key g) = true
        · rw [if_pos hag] at hyx ⊢
          exact hmax g (Or.inr (List.mem_cons_self _ _)) hyx
        · rw [if_neg hag] at hyx ⊢
          exact hmax a (Or.inl rfl) hyx
      · exact hmax y (Or.inr (List.mem_cons_of_mem _ hygs)) hyx
    exact ih _ (hstep.imp Eq.symm id) hcov

theorem argmaxFirst_eq_of_unique (hasym : ∀ x y, lt x y = true → lt y x = false)
    {l : List α} {x : α} (hx : x ∈ l)
    (hmax : ∀ y ∈ l, y ≠ x → lt (key y) (key x) = true) :
    argmaxFirst lt key l = some x := by
  cases l with
  | nil => cases hx
  | cons f fs =>
    simp only [argmaxFirst, Option.some_inj]
    refine foldl_pick_unique lt key hasym fs f x ?_ ?_
    · rcases List.mem_cons.mp hx with rfl | h
      · exact Or.inl rfl
      · exact Or.inr h
    · intro y hy hyx
      rcases hy with rfl | h
      · exact hmax y (List.mem_cons_self _ _) hyx
      · exact hmax y (List.mem_cons_of_mem _ h) hyx

end ArgMaxUnique

/-! ## The two ranking orders are strict total orders -/

theorem rankKeyLt_asymm : ∀ x y, rankKeyLt x y = true → rankKeyLt y x = false := by
  rintro ⟨hx, tx, fx⟩ ⟨hy, ty, fy⟩ h
  rw [Bool.eq_false_iff]
  intro h2
  simp only [rankKeyLt, Bool.or_eq_true, Bool.and_eq_true, Bool.not_eq_true',
    beq_iff_eq, decide_eq_true_eq] at h h2
  rcases h with ⟨e1, e2⟩ | ⟨e3, h4⟩
  · rcases h2 with ⟨f1, f2⟩ | ⟨f3, h5⟩
    · rw [e1] at f2; cases f2
    · rw [e1, e2] at f3; cases f3
  · rcases h2 with ⟨f1, f2⟩ | ⟨f3, h5⟩
    · rw [f1, f2] at e3; cases e3
    · rcases h4 with ht | ⟨hte, hf⟩ <;> rcases h5 with ht2 | ⟨hte2, hf2⟩ <;> linarith

theorem rankKeyLt_trans :
    ∀ x y z, rankKeyLt x y = true → rankKeyLt y z = true → rankKeyLt x z = true := by
  rintro ⟨hx, tx, fx⟩ ⟨hy, ty, fy⟩ ⟨hz, tz, fz⟩ h h2
  simp only [rankKeyLt, Bool.or_eq_true, Bool.and_eq_true, Bool.not_eq_true',
    beq_iff_eq, decide_eq_true_eq] at h h2 ⊢
  rcases h with ⟨e1, e2⟩ | ⟨e3, h4⟩
  · rcases h2 with ⟨f1, f2⟩ | ⟨f3, h5⟩
    · rw [e2] at f1; cases f1
    · rw [← f3, e2]
      exact Or.inl ⟨e1, rfl⟩
  · rcases h2 with ⟨f1, f2⟩ | ⟨f3, h5⟩
    · rw [e3, f1]
      exact Or.inl ⟨rfl, f2⟩
    · refine Or.inr ⟨e3.trans f3, ?_⟩
      rcases h4 with ht | ⟨hte, hf⟩ <;> rcases h5 with ht2 | ⟨hte2, hf2⟩
      · exact Or.inl (by linarith)
      · exact Or.inl (by linarith)
      · exact Or.inl (by linarith)
      · exact Or.inr ⟨by linarith, by linarith⟩

theorem rankKeyLt_conn :
    ∀ x y, rankKeyLt x y = false → rankKeyLt y x = false → x = y := by
  rintro ⟨hx, tx, fx⟩ ⟨hy, ty, fy⟩ h h2
  simp only [rankKeyLt, Bool.or_eq_false_iff, Bool.and_eq_false_iff,
    Bool.not_eq_false', beq_eq_false_iff_ne, decide_eq_false_iff_not] at h h2
  obtain ⟨ha1, ha2⟩ := h
  obtain ⟨hb1, hb2⟩ := h2
  have hhs : hx = hy := by
    cases hx <;> cases hy <;> simp_all
  rcases ha2 with hne | ⟨hlt1, hrest1⟩
  · exact absurd hhs hne
  rcases hb2 with hne | ⟨hlt2, hrest2⟩
  · exact absurd hhs.symm hne
  have ht : tx = ty := by linarith [not_lt.mp hlt1, not_lt.mp hlt2]
  have hf : fx = fy := by
    rcases hrest1 with hne | hnf1
    · exact absurd ht hne
    rcases hrest2 with hne | hnf2
    · exact absurd ht.symm hne
    linarith [not_lt.mp hnf1, not_lt.mp hnf2]
  rw [hhs, ht, hf]

theorem audioKeyLt_asymm : ∀ x y, audioKeyLt x y = true → audioKeyLt y x = false := by
  rintro ⟨sx, ax⟩ ⟨sy, ay⟩ h
  rw [Bool.eq_false_iff]
  intro h2
  simp only [audioKeyLt, Bool.or_eq_true, Bool.and_eq_true, beq_iff_eq,
    decide_eq_true_eq] at h h2
  rcases h with h | ⟨e, h⟩ <;> rcases h2 with h2 | ⟨e2, h2⟩
  · omega
  · omega
  · omega
  · linarith

theorem audioKeyLt_trans :
    ∀ x y z, audioKeyLt x y = true → audioKeyLt y z = true → audioKeyLt x z = true := by
  rintro ⟨sx, ax⟩ ⟨sy, ay⟩ ⟨sz, az⟩ h h2
  simp only [audioKeyLt, Bool.or_eq_true, Bool.and_eq_true, beq_iff_eq,
    decide_eq_true_eq] at h h2 ⊢
  rcases h with h | ⟨e, h⟩ <;> rcases h2 with h2 | ⟨e2, h2⟩
  · exact Or.inl (by linarith)
  · exact Or.inl (by omega)
  · exact Or.inl (by omega)
  · exact Or.inr ⟨by omega, by linarith⟩

theorem audioKeyLt_conn :
    ∀ x y, audioKeyLt x y = false → audioKeyLt y x = false → x = y := by
  rintro ⟨sx, ax⟩ ⟨sy, ay⟩ h h2
  simp only [audioKeyLt, Bool.or_eq_false_iff, Bool.and_eq_false_iff,
    beq_eq_false_iff_ne, decide_eq_false_iff_not] at h h2
  obtain ⟨ha1, ha2⟩ := h
  obtain ⟨hb1, hb2⟩ := h2
  have hs : sx = sy := by omega
  have ha : ax = ay := by
    rcases ha2 with hne | h3
    · exact absurd hs hne
    rcases hb2 with hne | h4
    · exact absurd hs.symm hne
    linarith [not_lt.mp h3, not_lt.mp h4]
  rw [hs, ha]

/-! ## Facts about the nonempty max/min used for nearest-height narrowing -/

theorem listMaxZ_mem (h : ℤ) (hs : List ℤ) : listMaxZ h hs = h ∨ listMaxZ h hs ∈ hs := by
  induction hs generalizing h with
  | nil => exact Or.inl rfl
  | cons g gs ih =>
    simp only [listMaxZ, List.foldl_cons] at ih ⊢
    rcases ih (max h g) with h' | h'
    · rcases max_choice h g with hm | hm
      · exact Or.inl (h'.trans hm)
      · refine Or.inr ?_
        rw [h'.trans hm]
        exact List.mem_cons_self _ _
    · exact Or.inr (List.mem_cons_of_mem _ h')

theorem le_listMaxZ (h : ℤ) (hs : List ℤ) :
    h ≤ listMaxZ h hs ∧ ∀ y ∈ hs, y ≤ listMaxZ h hs := by
  induction hs generalizing h with
  | nil => exact ⟨le_refl _, by intro y hy; cases hy⟩
  | cons g gs ih =>
    simp only [listMaxZ, List.foldl_cons] at ih ⊢
    obtain ⟨h1, h2⟩ := ih (max h g)
    refine ⟨le_trans (le_max_left _ _) h1, ?_⟩
    intro y hy
    rcases List.mem_cons.mp hy with rfl | hy
    · exact le_trans (le_max_right _ _) h1
    · exact h2 y hy

theorem listMinZ_mem (h : ℤ) (hs : List ℤ) : listMinZ h hs = h ∨ listMinZ h hs ∈ hs := by
  induction hs generalizing h with
  | nil => exact Or.inl rfl
  | cons g gs ih =>
    simp only [listMinZ, List.foldl_cons] at ih ⊢
    rcases ih (min h g) with h' | h'
    · rcases min_choice h g with hm | hm
      · exact Or.inl (h'.trans hm)
      · refine Or.inr ?_
        rw [h'.trans hm]
        exact List.mem_cons_self _ _
    · exact Or.inr (List.mem_cons_of_mem _ h')

theorem listMinZ_le (h : ℤ) (hs : List ℤ) :
    listMinZ h hs ≤ h ∧ ∀ y ∈ hs, listMinZ h hs ≤ y := by
  induction hs generalizing h with
  | nil => exact ⟨le_refl _, by intro y hy; cases hy⟩
  | cons g gs ih =>
    simp only [listMinZ, List.foldl_cons] at ih ⊢
    obtain ⟨h1, h2⟩ := ih (min h g)
    refine ⟨le_trans h1 (min_le_left _ _), ?_⟩
    intro y hy
    rcases List.mem_cons.mp hy with rfl | hy
    · exact le_trans h1 (min_le_right _ _)
    · exact h2 y hy

/-! ## Properties of the height-based pickers -/

theorem height_eq_of_pos (f : Fmt) (h : hasPosIntHeight f = true) :
    f.height = some (heightOf f) ∧ 0 < heightOf f := by
  unfold hasPosIntHeight at h
  cases hh : f.height with
  | none => rw [hh] at h; cases h
  | some v =>
    rw [hh] at h
    simp only [decide_eq_true_eq] at h
    refine ⟨?_, ?_⟩ <;> simp [heightOf, hh, h]

theorem pickFrom_spec (d : Option ℤ) (cands : List Fmt) (hne : cands ≠ []) :
    ∃ b, pickFrom d cands = (some b, filesizeFromFmt (some b) d) ∧ b ∈ cands ∧
      ∀ y ∈ cands, rankKeyLt (rankKey d b) (rankKey d y) = false := by
  have hsome := argmaxFirst_isSome rankKeyLt (rankKey d) hne
  obtain ⟨b, hb⟩ := Option.isSome_iff_exists.mp hsome
  refine ⟨b, ?_, argmaxFirst_mem _ _ hb, ?_⟩
  · simp [pickFrom, hb]
  · exact argmaxFirst_not_lt _ _ rankKeyLt_asymm rankKeyLt_trans rankKeyLt_conn hb

theorem beq_height_true {f : Fmt} {t : ℤ} (h : f.height = some t) :
    (f.height == some t) = true := by
  rw [h]; exact beq_self_eq_true _

theorem listMaxD_mem {l : List ℤ} (h : l ≠ []) : listMaxD l ∈ l := by
  cases l with
  | nil => exact absurd rfl h
  | cons x xs =>
    rcases listMaxZ_mem x xs with h' | h'
    · rw [show listMaxD (x :: xs) = listMaxZ x xs from rfl, h']
      exact List.mem_cons_self _ _
    · exact List.mem_cons_of_mem _ h'

theorem le_listMaxD {l : List ℤ} : ∀ y ∈ l, y ≤ listMaxD l := by
  intro y hy
  cases l with
  | nil => cases hy
  | cons x xs =>
    rcases List.mem_cons.mp hy with rfl | hy
    · exact (le_listMaxZ _ _).1
    · exact (le_listMaxZ _ _).2 _ hy

theorem listMinD_mem {l : List ℤ} (h : l ≠ []) : listMinD l ∈ l := by
  cases l with
  | nil => exact absurd rfl h
  | cons x xs =>
    rcases listMinZ_mem x xs with h' | h'
    · rw [show listMinD (x :: xs) = listMinZ x xs from rfl, h']
      exact List.mem_cons_self _ _
    · exact List.mem_cons_of_mem _ h'

theorem listMinD_le {l : List ℤ} : ∀ y ∈ l, listMinD l ≤ y := by
  intro y hy
  cases l with
  | nil => cases hy
  | cons x xs =>
    rcases List.mem_cons.mp hy with rfl | hy
    · exact (listMinZ_le _ _).1
    · exact (listMinZ_le _ _).2 _ hy

/-- Narrowing behaviour of the shared picker body, for pools whose members
all carry a positive integer height. -/
theorem pickPool_narrowing (pool : List Fmt) (t : ℤ) (d : Option ℤ)
    (hok : ∀ f ∈ pool, hasPosIntHeight f = true) :
    (pool = [] → pickByHeightFromPool pool t d = (none, none)) ∧
    ((∃ f ∈ pool, f.height = some t) →
      ∃ b, (pickByHeightFromPool pool t d).1 = some b ∧ b ∈ pool ∧
        b.height = some t) ∧
    ((∀ f ∈ pool, f.height ≠ some t) → (∃ f ∈ pool, heightOf f < t) →
      ∃ b, (pickByHeightFromPool pool t d).1 = some b ∧ b ∈ pool ∧
        heightOf b < t ∧ ∀ f ∈ pool, heightOf f < t → heightOf f ≤ heightOf b) ∧
    ((∀ f ∈ pool, f.height ≠ some t) → (∀ f ∈ pool, ¬ heightOf f < t) →
     (∃ f ∈ pool, t < heightOf f) →
      ∃ b, (pickByHeightFromPool pool t d).1 = some b ∧ b ∈ pool ∧
        t < heightOf b ∧ ∀ f ∈ pool, t < heightOf f → heightOf b ≤ heightOf f) := by
  refine ⟨?_, ?_, ?_, ?_⟩
  · rintro rfl
    simp [pickByHeightFromPool]
  · rintro ⟨f, hf, hft⟩
    have hpoolne : pool ≠ [] := List.ne_nil_of_mem hf
    have hexne : pool.filter (fun f => f.height == some t) ≠ [] :=
      List.ne_nil_of_mem (List.mem_filter.mpr ⟨hf, beq_height_true hft⟩)
    obtain ⟨b, hbeq, hbmem, _⟩ := pickFrom_spec d _ hexne
    refine ⟨b, ?_, (List.mem_filter.mp hbmem).1, ?_⟩
    · simp only [pickByHeightFromPool]
      rw [if_neg hpoolne, if_pos hexne, hbeq]
    · simpa [beq_iff_eq] using (List.mem_filter.mp hbmem).2
  · intro hnex hbel
    obtain ⟨f0, hf0, hf0lt⟩ := hbel
    have hpoolne : pool ≠ [] := List.ne_nil_of_mem hf0
    have hexnil : pool.filter (fun f => f.height == some t) = [] := by
      rw [List.filter_eq_nil_iff]
      intro a ha
      simp only [beq_iff_eq]
      exact hnex a ha
    have hf0below : f0 ∈ belowFilter pool t := by
      refine List.mem_filter.mpr ⟨hf0, ?_⟩
      obtain ⟨hhs, _⟩ := height_eq_of_pos f0 (hok f0 hf0)
      rw [hhs]
      simpa using hf0lt
    have hbelne : belowFilter pool t ≠ [] := List.ne_nil_of_mem hf0below
    have hmapne : (belowFilter pool t).map heightOf ≠ [] := by
      intro hmap
      exact hbelne (List.map_eq_nil_iff.mp hmap)
    obtain ⟨g, hgbelow, hgmh⟩ :=
      List.mem_map.mp (listMaxD_mem hmapne)
    have hgpool : g ∈ pool := (List.mem_filter.mp hgbelow).1
    have hgh : g.height = some (listMaxD ((belowFilter pool t).map heightOf)) := by
      obtain ⟨hhs, _⟩ := height_eq_of_pos g (hok g hgpool)
      rw [hhs, hgmh]
    have hcne : (belowFilter pool t).filter
        (fun f => f.height == some (listMaxD ((belowFilter pool t).map heightOf))) ≠ [] :=
      List.ne_nil_of_mem (List.mem_filter.mpr ⟨hgbelow, beq_height_true hgh⟩)
    obtain ⟨b, hbeq, hbmem, _⟩ := pickFrom_spec d _ hcne
    have hbbelow : b ∈ belowFilter pool t := (List.mem_filter.mp hbmem).1
    have hbpool : b ∈ pool := (List.mem_filter.mp hbbelow).1
    have hbh : b.height = some (listMaxD ((belowFilter pool t).map heightOf)) := by
      simpa [beq_iff_eq] using (List.mem_filter.mp hbmem).2
    have hbho : heightOf b = listMaxD ((belowFilter pool t).map heightOf) := by
      simp [heightOf, hbh]
    have hmhlt : listMaxD ((belowFilter pool t).map heightOf) < t := by
      have h2 := (List.mem_filter.mp hgbelow).2
      obtain ⟨hhs, _⟩ := height_eq_of_pos g (hok g hgpool)
      rw [hhs] at h2
      simp only [decide_eq_true_eq] at h2
      rw [hgh] at hhs
      have : heightOf g = listMaxD ((belowFilter pool t).map heightOf) := by
        simp [heightOf, hgh]
      rw [← this]
      exact h2
    refine ⟨b, ?_, hbpool, ?_, ?_⟩
    · simp only [pickByHeightFromPool]
      rw [if_neg hpoolne, if_neg (by simp [hexnil]), if_pos hbelne, hbeq]
    · rw [hbho]
      exact hmhlt
    · intro f hfp hflt
      have hfbelow : f ∈ belowFilter pool t := by
        refine List.mem_filter.mpr ⟨hfp, ?_⟩
        obtain ⟨hhs, _⟩ := height_eq_of_pos f (hok f hfp)
        rw [hhs]
        simpa using hflt
      rw [hbho]
      exact le_listMaxD _ (List.mem_map_of_mem _ hfbelow)
  · intro hnex hnb hab
    obtain ⟨f0, hf0, hf0gt⟩ := hab
    have hpoolne : pool ≠ [] := List.ne_nil_of_mem hf0
    have hexnil : pool.filter (fun f => f.height == some t) = [] := by
      rw [List.filter_eq_nil_iff]
      intro a ha
      simp only [beq_iff_eq]
      exact hnex a ha
    have hbelnil : belowFilter pool t = [] := by
      rw [belowFilter, List.filter_eq_nil_iff]
      intro a ha
      obtain ⟨hhs, _⟩ := height_eq_of_pos a (hok a ha)
      rw [hhs]
      simpa using hnb a ha
    have hf0above : f0 ∈ aboveFilter pool t := by
      refine List.mem_filter.mpr ⟨hf0, ?_⟩
      obtain ⟨hhs, _⟩ := height_eq_of_pos f0 (hok f0 hf0)
      rw [hhs]
      simpa using hf0gt
    have habne : aboveFilter pool t ≠ [] := List.ne_nil_of_mem hf0above
    have hmapne : (aboveFilter pool t).map heightOf ≠ [] := by
      intro hmap
      exact habne (List.map_eq_nil_iff.mp hmap)
    obtain ⟨g, hgabove, hgmh⟩ :=
      List.mem_map.mp (listMinD_mem hmapne)
    have hgpool : g ∈ pool := (List.mem_filter.mp hgabove).1
    have hgh : g.height = some (listMinD ((aboveFilter pool t).map heightOf)) := by
      obtain ⟨hhs, _⟩ := height_eq_of_pos g (hok g hgpool)
      rw [hhs, hgmh]
    have hcne : (aboveFilter pool t).filter
        (fun f => f.height == some (listMinD ((aboveFilter pool t).map heightOf))) ≠ [] :=
      List.ne_nil_of_mem (List.mem_filter.mpr ⟨hgabove, beq_height_true hgh⟩)
    obtain ⟨b, hbeq, hbmem, _⟩ := pickFrom_spec d _ hcne
    have habove2 : b ∈ aboveFilter pool t := (List.mem_filter.mp hbmem).1
    have hbpool : b ∈ pool := (List.mem_filter.mp habove2).1
    have hbh : b.height = some (listMinD ((aboveFilter pool t).map heightOf)) := by
      simpa [beq_iff_eq] using (List.mem_filter.mp hbmem).2
    have hbho : heightOf b = listMinD ((aboveFilter pool t).map heightOf) := by
      simp [heightOf, hbh]
    have hmhgt : t < listMinD ((aboveFilter pool t).map heightOf) := by
      have h2 := (List.mem_filter.mp hgabove).2
      obtain ⟨hhs, _⟩ := height_eq_of_pos g (hok g hgpool)
      rw [hhs] at h2
      simp only [decide_eq_true_eq] at h2
      have : heightOf g = listMinD ((aboveFilter pool t).map heightOf) := by
        simp [heightOf, hgh]
      rw [← this]
      exact h2
    refine ⟨b, ?_, hbpool, ?_, ?_⟩
    · simp only [pickByHeightFromPool]
      rw [if_neg hpoolne, if_neg (by simp [hexnil]), if_neg (by simp [hbelnil]),
        if_pos habne, hbeq]
    · rw [hbho]
      exact hmhgt
    · intro f hfp hfgt
      have hfabove : f ∈ aboveFilter pool t := by
        refine List.mem_filter.mpr ⟨hfp, ?_⟩
        obtain ⟨hhs, _⟩ := height_eq_of_pos f (hok f hfp)
        rw [hhs]
        simpa using hfgt
      rw [hbho]
      exact listMinD_le _ (List.mem_map_of_mem _ hfabove)

/-! ## Claim C2: exact-size precedence in the estimator -/

/-- C2: for every track with a present numeric `exact_size_bytes`
(`filesize`), the estimator returns exactly that value truncated to an
integer, whatever `approx_size_bytes` and the bitrate fields hold; the
approximate size is consulted only when the exact one is absent. -/
theorem exact_size_precedence (f : Fmt) (d : Option ℤ) (q : ℚ) :
    (f.filesize = some q → filesizeFromFmt (some f) d = some (pyTrunc q)) ∧
    (f.filesize = none → f.filesize_approx = some q →
      filesizeFromFmt (some f) d = some (pyTrunc q)) := by
  constructor
  · intro h
    simp [filesizeFromFmt, h]
  · intro h h2
    simp [filesizeFromFmt, h, h2]

/-- A track carrying an exact size together with a conflicting approximate
size and bitrate data. -/
def fmtExactW : Fmt := { emptyFmt with
  filesize := some 45234567
  filesize_approx := some 99999
  tbr := some 5 }

/-- A track carrying only an approximate size plus bitrate data. -/
def fmtApproxW : Fmt := { emptyFmt with
  filesize_approx := some 1000
  tbr := some 7 }

theorem exact_size_precedence_witness :
    filesizeFromFmt (some fmtExactW) (some 180) = some 45234567 ∧
    filesizeFromFmt (some fmtApproxW) (some 180) = some 1000 := by
  constructor
  · rw [(exact_size_precedence fmtExactW (some 180) 45234567).1 rfl]
    decide
  · rw [(exact_size_precedence fmtApproxW (some 180) 1000).2 rfl rfl]
    decide

/-! ## Claim C3: bitrate × duration estimation truncates, it does not round -/

/-- A track whose only size datum is `tbr = 0.375` kbps. -/
def fmtRateCx : Fmt := { emptyFmt with tbr := some (3/8) }

unseal Rat.mul Rat.add Rat.sub Rat.inv in
/-- C3 counterexample: at `k = 0.375` kbps and `d = 1` s the source computes
`int(0.375 * 1000 / 8 * 1) = int(46.875) = 46`, while the claimed
`round(k * 1000 / 8 * d)` is `47` (all values float-exact). -/
theorem bitrate_estimate_rounding_cx :
    filesizeFromFmt (some fmtRateCx) (some 1)
        ≠ some (pyRound ((3/8 : ℚ) * 1000 / 8 * ((1 : ℤ) : ℚ))) ∧
    filesizeFromFmt (some fmtRateCx) (some 1) = some 46 ∧
    pyRound ((3/8 : ℚ) * 1000 / 8 * ((1 : ℤ) : ℚ)) = 47 := by
  refine ⟨?_, ?_, ?_⟩ <;> decide

/-- C3 amended: with both size fields absent and `k` the first positive value
among `tbr`, `vbr`, `abr`, a nonzero known duration `d` yields
`int(k * 1000 / 8 * d)` — truncation toward zero, not `round` — and the
estimate is `None` when the duration is unknown, when the duration is zero
(Python's falsy check), or when no positive bitrate exists. -/
theorem bitrate_estimate_trunc (f : Fmt) (d : ℤ) (k : ℚ)
    (h1 : f.filesize = none) (h2 : f.filesize_approx = none) :
    (firstPos [f.tbr, f.vbr, f.abr] = some k → d ≠ 0 →
      filesizeFromFmt (some f) (some d) = some (pyTrunc (k * 1000 / 8 * (d : ℚ)))) ∧
    filesizeFromFmt (some f) none = none ∧
    (firstPos [f.tbr, f.vbr, f.abr] = none →
      filesizeFromFmt (some f) (some d) = none) ∧
    filesizeFromFmt (some f) (some 0) = none := by
  refine ⟨?_, ?_, ?_, ?_⟩
  · intro h3 hd
    simp [filesizeFromFmt, h1, h2, h3, hd]
  · simp [filesizeFromFmt, h1, h2]
  · intro h3
    simp [filesizeFromFmt, h1, h2, h3]
  · cases h3 : firstPos [f.tbr, f.vbr, f.abr] <;>
      simp [filesizeFromFmt, h1, h2, h3]

/-- A track with only a total bitrate of 2000 kbps. -/
def fmtRateW : Fmt := { emptyFmt with tbr := some 2000 }

unseal Rat.mul Rat.add Rat.sub Rat.inv in
theorem bitrate_estimate_trunc_witness :
    filesizeFromFmt (some fmtRateW) (some 180) = some 45000000 ∧
    filesizeFromFmt (some fmtRateW) (some 0) = none := by
  constructor
  · rw [(bitrate_estimate_trunc fmtRateW 180 2000 rfl rfl).1 (by decide) (by decide)]
    decide
  · exact (bitrate_estimate_trunc fmtRateW 0 2000 rfl rfl).2.2.2

/-! ## Claim C4: height narrowing of video-only selection -/

/-- C4: video-only selection narrows to exact-height candidates whenever one
exists (so an exact match beats any non-exact candidate regardless of
bitrate), else to those of the largest height strictly below the target, else
to those of the smallest height strictly above, and returns `None` when the
video-only pool is empty. -/
theorem pick_video_by_height_narrowing (formats : List Fmt) (t : ℤ) (d : Option ℤ) :
    (heightPool isVideoOnly formats = [] →
      pickVideoByHeight formats t d = (none, none)) ∧
    ((∃ f ∈ heightPool isVideoOnly formats, f.height = some t) →
      ∃ b, (pickVideoByHeight formats t d).1 = some b ∧
        b ∈ heightPool isVideoOnly formats ∧ b.height = some t) ∧
    ((∀ f ∈ heightPool isVideoOnly formats, f.height ≠ some t) →
     (∃ f ∈ heightPool isVideoOnly formats, heightOf f < t) →
      ∃ b, (pickVideoByHeight formats t d).1 = some b ∧
        b ∈ heightPool isVideoOnly formats ∧ heightOf b < t ∧
        ∀ f ∈ heightPool isVideoOnly formats, heightOf f < t →
          heightOf f ≤ heightOf b) ∧
    ((∀ f ∈ heightPool isVideoOnly formats, f.height ≠ some t) →
     (∀ f ∈ heightPool isVideoOnly formats, ¬ heightOf f < t) →
     (∃ f ∈ heightPool isVideoOnly formats, t < heightOf f) →
      ∃ b, (pickVideoByHeight formats t d).1 = some b ∧
        b ∈ heightPool isVideoOnly formats ∧ t < heightOf b ∧
        ∀ f ∈ heightPool isVideoOnly formats, t < heightOf f →
          heightOf b ≤ heightOf f) := by
  have hok : ∀ f ∈ heightPool isVideoOnly formats, hasPosIntHeight f = true := by
    intro f hf
    have h2 := (List.mem_filter.mp hf).2
    rw [Bool.and_eq_true] at h2
    exact h2.2
  exact pickPool_narrowing (heightPool isVideoOnly formats) t d hok

/-- A video-only 720p track. -/
def trackV720A : Fmt := { emptyFmt with
  format_id := some "A"
  vcodec := some "vp9"
  acodec := some "none"
  height := some 720
  tbr := some 100 }

theorem pick_video_by_height_narrowing_witness :
    ∃ b, (pickVideoByHeight [trackV720A] 720 none).1 = some b ∧
      b ∈ heightPool isVideoOnly [trackV720A] ∧ b.height = some 720 :=
  (pick_video_by_height_narrowing [trackV720A] 720 none).2.1
    ⟨trackV720A, by decide, by decide⟩

/-! ## Claim C6: audio ranking -/

/-- C6: audio-only selection ranks by the additive score encoded in
`audioScore` (Opus codec `+3`, `webm` container `+1`, AAC codec or `.m4a`
container `+2`, determinable size `+2`; a track can match several signals)
with audio bitrate descending as tie-break, and returns the highest-ranked
candidate together with its estimated size. -/
theorem pick_audio_max_score (formats : List Fmt) (d : Option ℤ)
    (hne : formats.filter isAudioOnly ≠ []) :
    ∃ c, (pickAudio formats d).1 = some c ∧ c ∈ formats.filter isAudioOnly ∧
      (pickAudio formats d).2 = filesizeFromFmt (some c) d ∧
      ∀ f ∈ formats.filter isAudioOnly,
        audioKeyLt (audioKey d c) (audioKey d f) = false := by
  have hsome := argmaxFirst_isSome audioKeyLt (audioKey d) hne
  obtain ⟨c, hc⟩ := Option.isSome_iff_exists.mp hsome
  refine ⟨c, ?_, argmaxFirst_mem _ _ hc, ?_, ?_⟩
  · simp [pickAudio, hc]
  · simp [pickAudio, hc]
  · exact argmaxFirst_not_lt _ _ audioKeyLt_asymm audioKeyLt_trans audioKeyLt_conn hc

/-- An Opus/webm audio-only track. -/
def audOpusW : Fmt := { emptyFmt with
  format_id := some "251"
  vcodec := some "none"
  acodec := some "opus"
  ext := some "webm"
  abr := some 130 }

theorem pick_audio_max_score_witness :
    ∃ c, (pickAudio [audOpusW] none).1 = some c ∧
      c ∈ [audOpusW].filter isAudioOnly ∧
      (pickAudio [audOpusW] none).2 = filesizeFromFmt (some c) none ∧
      ∀ f ∈ [audOpusW].filter isAudioOnly,
        audioKeyLt (audioKey none c) (audioKey none f) = false :=
  pick_audio_max_score [audOpusW] none (by decide)

/-! ## Claim C10: selection under permutation of the track list -/

theorem listMaxZ_mem' (h : ℤ) (hs : List ℤ) : listMaxZ h hs ∈ h :: hs := by
  rcases listMaxZ_mem h hs with h' | h'
  · rw [h']; exact List.mem_cons_self _ _
  · exact List.mem_cons_of_mem _ h'

theorem le_listMaxZ' (h : ℤ) (hs : List ℤ) : ∀ y ∈ h :: hs, y ≤ listMaxZ h hs := by
  intro y hy
  rcases List.mem_cons.mp hy with rfl | hy
  · exact (le_listMaxZ _ _).1
  · exact (le_listMaxZ _ _).2 _ hy

theorem listMinZ_mem' (h : ℤ) (hs : List ℤ) : listMinZ h hs ∈ h :: hs := by
  rcases listMinZ_mem h hs with h' | h'
  · rw [h']; exact List.mem_cons_self _ _
  · exact List.mem_cons_of_mem _ h'

theorem listMinZ_le' (h : ℤ) (hs : List ℤ) : ∀ y ∈ h :: hs, listMinZ h hs ≤ y := by
  intro y hy
  rcases List.mem_cons.mp hy with rfl | hy
  · exact (listMinZ_le _ _).1
  · exact (listMinZ_le _ _).2 _ hy

theorem listMaxZ_perm (h₁ : ℤ) (hs₁ : List ℤ) (h₂ : ℤ) (hs₂ : List ℤ)
    (hp : (h₁ :: hs₁).Perm (h₂ :: hs₂)) :
    listMaxZ h₁ hs₁ = listMaxZ h₂ hs₂ := by
  have m1 := listMaxZ_mem' h₁ hs₁
  have m2 := listMaxZ_mem' h₂ hs₂
  have le1 := le_listMaxZ' h₂ hs₂ _ (hp.mem_iff.mp m1)
  have le2 := le_listMaxZ' h₁ hs₁ _ (hp.mem_iff.mpr m2)
  omega

theorem listMinZ_perm (h₁ : ℤ) (hs₁ : List ℤ) (h₂ : ℤ) (hs₂ : List ℤ)
    (hp : (h₁ :: hs₁).Perm (h₂ :: hs₂)) :
    listMinZ h₁ hs₁ = listMinZ h₂ hs₂ := by
  have m1 := listMinZ_mem' h₁ hs₁
  have m2 := listMinZ_mem' h₂ hs₂
  have le1 := listMinZ_le' h₂ hs₂ _ (hp.mem_iff.mp m1)
  have le2 := listMinZ_le' h₁ hs₁ _ (hp.mem_iff.mpr m2)
  omega

/-- When the ranking key is injective on the candidate pool, the first-maximum
choice does not depend on the order of the pool. -/
theorem argmaxFirst_perm {α κ : Type} (lt : κ → κ → Bool) (key : α → κ)
    (hasym : ∀ x y, lt x y = true → lt y x = false)
    (htrans : ∀ x y z, lt x y = true → lt y z = true → lt x z = true)
    (hconn : ∀ x y, lt x y = false → lt y x = false → x = y)
    (cands₁ cands₂ : List α) (hp : cands₁.Perm cands₂)
    (hinj : ∀ f ∈ cands₁, ∀ g ∈ cands₁, key f = key g → f = g) :
    argmaxFirst lt key cands₁ = argmaxFirst lt key cands₂ := by
  cases hc : cands₁ with
  | nil =>
    rw [hc] at hp
    rw [← hp.nil_eq]
  | cons c cs =>
    rw [← hc]
    have hne : cands₁ ≠ [] := by rw [hc]; exact List.cons_ne_nil _ _
    obtain ⟨b, hb⟩ := Option.isSome_iff_exists.mp (argmaxFirst_isSome lt key hne)
    have hbmem := argmaxFirst_mem lt key hb
    have hbmax := argmaxFirst_not_lt lt key hasym htrans hconn hb
    have huniq : ∀ y ∈ cands₁, y ≠ b → lt (key y) (key b) = true := by
      intro y hy hyb
      cases hlt : lt (key y) (key b)
      · exact absurd (hinj y hy b hbmem (hconn _ _ hlt (hbmax y hy))) hyb
      · rfl
    rw [hb]
    exact (argmaxFirst_eq_of_unique lt key hasym (hp.mem_iff.mp hbmem)
      (fun y hy hyb => huniq y (hp.mem_iff.mpr hy) hyb)).symm

theorem pickFrom_perm (d : Option ℤ) (cands₁ cands₂ : List Fmt)
    (hp : cands₁.Perm cands₂)
    (hinj : ∀ f ∈ cands₁, ∀ g ∈ cands₁, rankKey d f = rankKey d g → f = g) :
    pickFrom d cands₁ = pickFrom d cands₂ := by
  unfold pickFrom
  rw [argmaxFirst_perm rankKeyLt (rankKey d) rankKeyLt_asymm rankKeyLt_trans
    rankKeyLt_conn cands₁ cands₂ hp hinj]

theorem listMaxD_perm {l₁ l₂ : List ℤ} (hp : l₁.Perm l₂) : listMaxD l₁ = listMaxD l₂ := by
  cases hl : l₁ with
  | nil =>
    rw [hl] at hp
    rw [← hp.nil_eq]
  | cons x xs =>
    have h1 : l₁ ≠ [] := by rw [hl]; exact List.cons_ne_nil _ _
    have h2 : l₂ ≠ [] := by
      intro hn
      rw [hn] at hp
      exact h1 hp.eq_nil
    rw [← hl]
    have le1 := le_listMaxD _ (hp.mem_iff.mp (listMaxD_mem h1))
    have le2 := le_listMaxD _ (hp.mem_iff.mpr (listMaxD_mem h2))
    omega

theorem listMinD_perm {l₁ l₂ : List ℤ} (hp : l₁.Perm l₂) : listMinD l₁ = listMinD l₂ := by
  cases hl : l₁ with
  | nil =>
    rw [hl] at hp
    rw [← hp.nil_eq]
  | cons x xs =>
    have h1 : l₁ ≠ [] := by rw [hl]; exact List.cons_ne_nil _ _
    have h2 : l₂ ≠ [] := by
      intro hn
      rw [hn] at hp
      exact h1 hp.eq_nil
    rw [← hl]
    have le1 := listMinD_le _ (hp.mem_iff.mp (listMinD_mem h1))
    have le2 := listMinD_le _ (hp.mem_iff.mpr (listMinD_mem h2))
    omega

/-- Permutation invariance of the shared picker body when the ranking key is
injective on the pool. -/
theorem pickPool_perm (t : ℤ) (d : Option ℤ) (pool₁ pool₂ : List Fmt)
    (hp : pool₁.Perm pool₂)
    (hinj : ∀ f ∈ pool₁, ∀ g ∈ pool₁, rankKey d f = rankKey d g → f = g) :
    pickByHeightFromPool pool₁ t d = pickByHeightFromPool pool₂ t d := by
  by_cases hnil : pool₁ = []
  · have hnil2 : pool₂ = [] := by
      rw [hnil] at hp
      exact hp.nil_eq.symm
    rw [hnil, hnil2]
  · have hnil2 : pool₂ ≠ [] := by
      intro hn
      rw [hn] at hp
      exact hnil hp.eq_nil
    have hpE : (pool₁.filter fun f => f.height == some t).Perm
        (pool₂.filter fun f => f.height == some t) := hp.filter _
    simp only [pickByHeightFromPool]
    rw [if_neg hnil, if_neg hnil2]
    by_cases hE : (pool₁.filter fun f => f.height == some t) = []
    · have hE2 : (pool₂.filter fun f => f.height == some t) = [] := by
        rw [hE] at hpE
        exact hpE.nil_eq.symm
      rw [if_neg (not_not_intro hE), if_neg (not_not_intro hE2)]
      have hpB : (belowFilter pool₁ t).Perm (belowFilter pool₂ t) := hp.filter _
      by_cases hB : belowFilter pool₁ t = []
      · have hB2 : belowFilter pool₂ t = [] := by
          rw [hB] at hpB
          exact hpB.nil_eq.symm
        rw [if_neg (not_not_intro hB), if_neg (not_not_intro hB2)]
        have hpA : (aboveFilter pool₁ t).Perm (aboveFilter pool₂ t) := hp.filter _
        by_cases hA : aboveFilter pool₁ t = []
        · have hA2 : aboveFilter pool₂ t = [] := by
            rw [hA] at hpA
            exact hpA.nil_eq.symm
          rw [if_neg (not_not_intro hA), if_neg (not_not_intro hA2)]
        · have hA2 : aboveFilter pool₂ t ≠ [] := by
            intro hn
            rw [hn] at hpA
            exact hA hpA.eq_nil
          rw [if_pos hA, if_pos hA2]
          have hmh : listMinD ((aboveFilter pool₁ t).map heightOf)
              = listMinD ((aboveFilter pool₂ t).map heightOf) :=
            listMinD_perm (hpA.map _)
          rw [← hmh]
          refine pickFrom_perm d _ _ (hpA.filter _) ?_
          intro f hf g hg
          exact hinj f (List.mem_filter.mp ((List.mem_filter.mp hf).1)).1
            g (List.mem_filter.mp ((List.mem_filter.mp hg).1)).1
      · have hB2 : belowFilter pool₂ t ≠ [] := by
          intro hn
          rw [hn] at hpB
          exact hB hpB.eq_nil
        rw [if_pos hB, if_pos hB2]
        have hmh : listMaxD ((belowFilter pool₁ t).map heightOf)
            = listMaxD ((belowFilter pool₂ t).map heightOf) :=
          listMaxD_perm (hpB.map _)
        rw [← hmh]
        refine pickFrom_perm d _ _ (hpB.filter _) ?_
        intro f hf g hg
        exact hinj f (List.mem_filter.mp ((List.mem_filter.mp hf).1)).1
          g (List.mem_filter.mp ((List.mem_filter.mp hg).1)).1
    · have hE2 : (pool₂.filter fun f => f.height == some t) ≠ [] := by
        intro hn
        rw [hn] at hpE
        exact hE hpE.eq_nil
      rw [if_pos hE, if_pos hE2]
      refine pickFrom_perm d _ _ hpE ?_
      intro f hf g hg
      exact hinj f (List.mem_filter.mp hf).1 g (List.mem_filter.mp hg).1

/-- A second video-only 720p track with the same ranking key as
`trackV720A` but a different id. -/
def trackV720B : Fmt := { emptyFmt with
  format_id := some "B"
  vcodec := some "vp9"
  acodec := some "none"
  height := some 720
  tbr := some 100 }

/-- A third video-only 720p track with a strictly smaller ranking key. -/
def trackV720C : Fmt := { emptyFmt with
  format_id := some "C"
  vcodec := some "vp9"
  acodec := some "none"
  height := some 720
  tbr := some 50 }

/-- C10 counterexample: with two exact-height candidates carrying identical
ranking keys, ties are broken by input order, so swapping the two tracks
changes the selected track. -/
theorem pick_video_perm_cx :
    ([trackV720A, trackV720B].Perm [trackV720B, trackV720A]) ∧
    pickVideoByHeight [trackV720A, trackV720B] 720 none
      ≠ pickVideoByHeight [trackV720B, trackV720A] 720 none := by
  constructor
  · exact List.Perm.swap _ _ _
  · decide

/-- C10 amended: permuting the track list does not change video-only
height-based selection provided the candidates' ranking keys are pairwise
distinct on the video pool (with identical but tied scores, the first
candidate in input order wins instead). -/
theorem pick_video_by_height_perm (l₁ l₂ : List Fmt) (t : ℤ) (d : Option ℤ)
    (hperm : l₁.Perm l₂)
    (hinj : ∀ f ∈ heightPool isVideoOnly l₁, ∀ g ∈ heightPool isVideoOnly l₁,
      rankKey d f = rankKey d g → f = g) :
    pickVideoByHeight l₁ t d = pickVideoByHeight l₂ t d := by
  unfold pickVideoByHeight heightPool
  refine pickPool_perm t d _ _ (hperm.filter _) ?_
  intro f hf g hg
  exact hinj f hf g hg

theorem pick_video_by_height_perm_witness :
    pickVideoByHeight [trackV720A, trackV720C] 720 none
      = pickVideoByHeight [trackV720C, trackV720A] 720 none :=
  pick_video_by_height_perm [trackV720A, trackV720C] [trackV720C, trackV720A]
    720 none (List.Perm.swap _ _ _) (by decide)

/-! ## Claim C1: end-to-end document with one 720p video and one audio track -/

/-- The claim's video-only track: id 398, height 720, exact size 40000000. -/
def vid398 : Fmt := { emptyFmt with
  format_id := some "398"
  vcodec := some "avc1.4d401f"
  acodec := some "none"
  ext := some "mp4"
  height := some 720
  fps := some 30
  filesize := some 40000000 }

/-- The claim's audio-only track: exact size 5000000 (canonical id 251). -/
def aud251 : Fmt := { emptyFmt with
  format_id := some "251"
  vcodec := some "none"
  acodec := some "opus"
  ext := some "webm"
  abr := some 130
  filesize := some 5000000 }

/-- The claim's metadata document. -/
def docC1 : MetaTop :=
  { entries := none, top := { duration := some 180, formats := [vid398, aud251] } }

/-- C1 counterexample: the claim says every resolution other than 720 stays
unknown, but nearest-height fallback selects the single 720p track for the
144 target too, so `s144p` is `45000000`, not unknown. -/
theorem end_to_end_other_res_cx :
    (computeSizesFromJsonAll docC1 none).s144p ≠ none ∧
    (computeSizesFromJsonAll docC1 none).s144p = some 45000000 := by
  constructor <;> decide

/-- C1 amended: the document yields `s720p = 45000000` and `v398 = 40000000`
as claimed, but the other resolution targets are not unknown: height fallback
(nearest below/above) resolves each of them to the same 720p track, so every
combined size is `45000000` and every canonical video-only size is
`40000000`; only the codec-variant video-only sizes (ids 299/303/308) are
unknown. -/
theorem end_to_end_full_result :
    computeSizesFromJsonAll docC1 none =
      { s144p := some 45000000, s240p := some 45000000, s360p := some 45000000
        s480p := some 45000000, s720p := some 45000000, s1080p := some 45000000
        s1440p := some 45000000
        v394 := some 40000000, v395 := some 40000000, v396 := some 40000000
        v397 := some 40000000, v398 := some 40000000, v399 := some 40000000
        v400 := some 40000000
        v299 := none, v303 := none, v308 := none
        a251 := some 5000000, durationSec := some 180 } := by
  decide

/-! ## Claim C5: combined sizes are a sum or a progressive size, never both -/

/-- C5: whenever a per-resolution combined size is present it is either the
chosen video-only size plus the shared audio size (both present), or — only
when one of those is missing — a progressive track's own size; and a present
codec-variant combined size is that variant's video-only size plus the
explicit id-251 audio size, which in that case is exactly the shared audio
size of step 3. -/
theorem combined_size_invariant (doc : MetaDoc) (d : Option ℤ) (h : ℤ)
    (fid : String) (s : ℤ) :
    (combinedAt doc d h fid = some s →
      (∃ v a, videoSizeAt doc d h fid = some v ∧ audioB doc d = some a ∧
        s = v + a) ∨
      ((videoSizeAt doc d h fid = none ∨ audioB doc d = none) ∧
        (pickProgressiveByHeight doc.formats h d).2 = some s)) ∧
    (∀ v0 : Option ℤ, variantCombined (a251Of doc) v0 = some s →
      ∃ v a, v0 = some v ∧ a251Of doc = some a ∧ audioB doc d = some a ∧
        s = v + a) := by
  constructor
  · intro hcomb
    unfold combinedAt at hcomb
    cases hv : videoSizeAt doc d h fid with
    | some v =>
      cases ha : audioB doc d with
      | some a =>
        rw [hv, ha] at hcomb
        exact Or.inl ⟨v, a, rfl, rfl, by injection hcomb with h'; omega⟩
      | none =>
        rw [hv, ha] at hcomb
        exact Or.inr ⟨Or.inr rfl, hcomb⟩
    | none =>
      cases ha : audioB doc d with
      | some a =>
        rw [hv, ha] at hcomb
        exact Or.inr ⟨Or.inl rfl, hcomb⟩
      | none =>
        rw [hv, ha] at hcomb
        exact Or.inr ⟨Or.inl rfl, hcomb⟩
  · intro v0 hvar
    unfold variantCombined at hvar
    cases ha : a251Of doc with
    | none =>
      rw [ha] at hvar
      cases hvar
    | some a =>
      rw [ha] at hvar
      cases hv : v0 with
      | none =>
        rw [hv] at hvar
        cases hvar
      | some v =>
        rw [hv] at hvar
        refine ⟨v, a, rfl, rfl, ?_, by injection hvar with h'; omega⟩
        unfold audioB
        rw [ha]

theorem combined_size_invariant_witness :
    (∃ v a, videoSizeAt docC1.top (some 180) 720 "398" = some v ∧
        audioB docC1.top (some 180) = some a ∧ (45000000 : ℤ) = v + a) ∨
    ((videoSizeAt docC1.top (some 180) 720 "398" = none ∨
        audioB docC1.top (some 180) = none) ∧
      (pickProgressiveByHeight docC1.top.formats 720 (some 180)).2
        = some 45000000) :=
  (combined_size_invariant docC1.top (some 180) 720 "398" 45000000).1 (by decide)

/-! ## Claim C9: the `a251` field versus the shared audio size -/

/-- An audio-only track with id 140 instead of the canonical 251. -/
def aud140 : Fmt := { emptyFmt with
  format_id := some "140"
  vcodec := some "none"
  acodec := some "mp4a.40.2"
  ext := some "m4a"
  abr := some 128
  filesize := some 5000000 }

/-- A document whose only audio track does not carry the canonical id. -/
def docC9 : MetaTop :=
  { entries := none, top := { duration := some 180, formats := [vid398, aud140] } }

/-- C9 counterexample: when the canonical id 251 is absent, the step-3 shared
audio size falls back to the Track Selector's audio pick (5000000 here, and
it is indeed summed into `s720p`), but the `a251` field of the result is
`None`, not that shared audio size. -/
theorem a251_shared_audio_cx :
    (computeSizesFromJsonAll docC9 none).a251 = none ∧
    audioB (resolveEntry docC9) (durationSecOf (resolveEntry docC9) none)
      = some 5000000 ∧
    (computeSizesFromJsonAll docC9 none).s720p = some 45000000 := by
  refine ⟨?_, ?_, ?_⟩ <;> decide

/-- C9 amended: the `a251` field holds only the determinable size of the
track with canonical id 251 (and is `None` when that track is absent or
sizeless); when it is present it coincides with the step-3 shared audio
size, and the fallback-selected audio size is used for combining only, never
reported in `a251`. -/
theorem a251_explicit_only (m : MetaTop) (hint : Option ℤ) (a : ℤ) :
    (computeSizesFromJsonAll m hint).a251 = a251Of (resolveEntry m) ∧
    (a251Of (resolveEntry m) = some a →
      audioB (resolveEntry m) (durationSecOf (resolveEntry m) hint) = some a) := by
  constructor
  · rfl
  · intro h
    unfold audioB
    rw [h]

theorem a251_explicit_only_witness :
    audioB (resolveEntry docC1) (durationSecOf (resolveEntry docC1) none)
      = some 5000000 :=
  (a251_explicit_only docC1 none 5000000).2 (by decide)

/-! ## Claim C7: the text table parser -/

unseal Rat.mul Rat.add Rat.sub Rat.inv in
/-- C7 counterexample: on the line `"398 x 0.0005KiB"` the parser stores
`int(0.0005 * 1024) = int(0.512) = 0` for id 398, while the claimed
`round(number * 1024^p)` is `round(0.512) = 1`. -/
theorem parse_sizes_rounding_cx :
    parseSizesFromFormatList "398 x 0.0005KiB" "398" = some 0 ∧
    pyRound ((5/10000 : ℚ) * 1024) = 1 ∧
    parseSizesFromFormatList "398 x 0.0005KiB" "398"
      ≠ some (pyRound ((5/10000 : ℚ) * 1024)) := by
  refine ⟨?_, ?_, ?_⟩ <;> decide

unseal Rat.mul Rat.add Rat.sub Rat.inv in
/-- C7 amended: a relevant line (leading 3-4 digit known id) whose first size
token has value `q` (number times the binary unit multiplier) sets that id to
`int(q)` truncated toward zero — not `round(q)` — with later lines
overwriting earlier ones; a relevant line without a size token leaves the
id's previous value (initially unknown) unchanged; on the example line the
truncated and rounded values agree at `47427092`. -/
theorem parse_sizes_amended (pre : List (List Char)) (line : List Char)
    (fid : String) (q : ℚ) :
    (idOfLine line = some fid → fid ∈ knownIds → searchSize line = some q →
      parseSizesLines (pre ++ [line]) fid = some (pyTrunc q)) ∧
    (idOfLine line = some fid → searchSize line = none →
      parseSizesLines (pre ++ [line]) fid = parseSizesLines pre fid) ∧
    parseSizesLines [] fid = none ∧
    parseSizesFromFormatList
        "398 mp4 1280x720 30 | 45.23MiB 2000k https | ..." "398"
      = some 47427092 ∧
    pyTrunc ((4523/100 : ℚ) * 1024 ^ 2) = 47427092 ∧
    pyRound ((4523/100 : ℚ) * 1024 ^ 2) = 47427092 := by
  refine ⟨?_, ?_, ?_, ?_, ?_, ?_⟩
  · intro h1 h2 h3
    unfold parseSizesLines
    rw [List.foldl_append]
    simp [parseSizesStep, h1, h2, h3]
  · intro h1 h3
    unfold parseSizesLines
    rw [List.foldl_append]
    simp [parseSizesStep, h1, h3]
  · rfl
  · decide
  · decide
  · decide

unseal Rat.mul Rat.add Rat.sub Rat.inv in
theorem parse_sizes_amended_witness :
    parseSizesLines ([] ++ [("394 x 5.50MiB").data]) "394"
      = some (pyTrunc (5767168 : ℚ)) :=
  (parse_sizes_amended [] ("394 x 5.50MiB").data "394" (5767168 : ℚ)).1
    (by decide) (by decide) (by decide)

/-! ## Claim C8: overall failure iff no combined size at all -/

/-- C8: the host replies with a failure response exactly when all seven
per-resolution combined sizes and all five codec-variant combined sizes are
unknown after both the structured path and the `-F` fallback; the failure
message prefers tool-not-found (exit 127), then timeout (exit 124), then the
joined captured error strings (each truncated to 300 characters, with a fixed
fallback text); any other gap still produces a success response. -/
theorem failure_iff_no_sizes (jres : ToolCall MetaTop) (fres : ToolCall String)
    (dres : ToolCall ℤ) (hint : Option ℤ) :
    ((runMain jres fres dres hint).isFailure
      = !hasAnySize (mainBytes jres fres hint)) ∧
    (hasAnySize (mainBytes jres fres hint) = false →
      (jres.code = 127 ∨ mainFCode jres fres hint = some 127) →
      runMain jres fres dres hint
        = .failure "yt-dlp not found in PATH. Please install yt-dlp.") ∧
    (hasAnySize (mainBytes jres fres hint) = false →
      ¬(jres.code = 127 ∨ mainFCode jres fres hint = some 127) →
      (jres.code = 124 ∨ mainFCode jres fres hint = some 124) →
      runMain jres fres dres hint
        = .failure "yt-dlp timed out while fetching data.") ∧
    (hasAnySize (mainBytes jres fres hint) = false →
      ¬(jres.code = 127 ∨ mainFCode jres fres hint = some 127) →
      ¬(jres.code = 124 ∨ mainFCode jres fres hint = some 124) →
      runMain jres fres dres hint = .failure
        (if String.intercalate "; " (errEntries jres.errText
            (mainFErr jres fres hint) (mainFCode jres fres hint)
            (mainDErr jres dres hint) (mainDCode jres dres hint)) = "" then
          "No size information could be determined from yt-dlp output."
        else String.intercalate "; " (errEntries jres.errText
          (mainFErr jres fres hint) (mainFCode jres fres hint)
          (mainDErr jres dres hint) (mainDCode jres dres hint)))) ∧
    (hasAnySize (mainBytes jres fres hint) = true →
      runMain jres fres dres hint
        = .success (mainBytes jres fres hint) (mainDur jres dres hint)) := by
  refine ⟨?_, ?_, ?_, ?_, ?_⟩
  · cases h : hasAnySize (mainBytes jres fres hint) <;>
      simp [runMain, h, MainResp.isFailure]
  · intro h0 h127
    simp only [runMain, h0, Bool.false_eq_true, if_false]
    unfold mainFailText failMsg
    rw [if_pos h127]
  · intro h0 h127 h124
    simp only [runMain, h0, Bool.false_eq_true, if_false]
    unfold mainFailText failMsg
    rw [if_neg h127, if_pos h124]
  · intro h0 h127 h124
    simp only [runMain, h0, Bool.false_eq_true, if_false]
    unfold mainFailText failMsg
    rw [if_neg h127, if_neg h124]
  · intro h0
    simp [runMain, h0]

/-- A request where both tool calls fail with plain errors and the duration
lookup returns nothing. -/
def jresW : ToolCall MetaTop := { payload := none, errText := some "boom", code := 1 }

def fresW : ToolCall String := { payload := none, errText := some "ferr", code := 1 }

def dresW : ToolCall ℤ := { payload := none, errText := none, code := 0 }

theorem failure_iff_no_sizes_witness :
    runMain jresW fresW dresW none = .failure "boom; ferr" := by
  have h := (failure_iff_no_sizes jresW fresW dresW none).2.2.2.1
    (by decide) (by decide) (by decide)
  rw [h]
  decide
